import Mathlib

/-!
# Verification of the self-adaptive formula engine
  (supabase edge function, `src/unnamed/part_001`)

This file gives a shallow embedding of the deterministic analytical core of
the prediction engine: feature extraction, the rule-mining engine
(`extractRules`), the rule applier (`applyFormulas`), the successor-period
computation, the backfill loop, and the per-mode counter/retrain policy of
the main handler.  JavaScript numbers are modelled with exact rational
arithmetic (`ℚ`); all guards in the source compare integer counters against
small decimal constants (`0.03`, `0.55`, thresholds `0.7/0.8/0.9`, averages
against `3`/`6`), for which double rounding is exact at the scales involved,
so the rational model is faithful.  Conditions of mined formulas are
represented structurally (one variant per rule family, carrying the
parameters that the source prints into the `condition` string and re-parses
with regexes at application time; the printed forms round-trip, and the
specification itself describes the condition as structured data).
The AI-gateway branch (`aiEnhanceRules`) is external, nondeterministic I-O
and is not modelled; the embedding covers the deterministic path, which is
what all the analysed properties are about.
-/

namespace Wingo

/-- One raw outcome row (`game_results`), as consumed by the engine. -/
structure GameRecord where
  issue_number : String
  number : ℕ
  color : String
deriving DecidableEq, Repr

/-- The two prediction modes (`"color" | "size"` in the source). -/
inductive Mode where
  | color
  | size
deriving DecidableEq, Repr

/-- Scan of a character list for the substring `red`
(models `String.prototype.includes("red")`). -/
def hasRedChars : List Char → Bool
  | 'r' :: 'e' :: 'd' :: _ => true
  | _ :: rest => hasRedChars rest
  | [] => false

/-- `r.color.toLowerCase().includes("red")` from `extractFeatures`. -/
def hasRedSub (s : String) : Bool :=
  hasRedChars (s.data.map Char.toLower)

/-- Result of `extractFeatures`: the categorical sequence and the parallel
numeric sequence. -/
structure Features where
  seq : List String
  nums : List ℕ
deriving DecidableEq, Repr

/-- `extractFeatures` (source lines 42–50): color mode maps to
`RED`/`GREEN` by substring match, size mode maps numbers `≤ 4` to `SMALL`
and the rest to `BIG`. -/
def extractFeatures (history : List GameRecord) (m : Mode) : Features :=
  { seq := history.map (fun r =>
      match m with
      | .color => if hasRedSub r.color then "RED" else "GREEN"
      | .size => if r.number ≤ 4 then "SMALL" else "BIG"),
    nums := history.map (·.number) }

/-- First element of `outs` for a mode (source line 59 / 304). -/
def outs0 : Mode → String
  | .color => "RED"
  | .size => "BIG"

/-- Second element of `outs` for a mode. -/
def outs1 : Mode → String
  | .color => "GREEN"
  | .size => "SMALL"

/-- `val === outs[0] ? outs[1] : outs[0]` — the pervasive label-flip
expression of the source. -/
def flipLabel (o0 o1 v : String) : String :=
  if v = o0 then o1 else o0

/-- Structured condition of a mined formula, one variant per rule family.
The source stores a printed form of these parameters in the `condition`
string and recovers them with regexes in `applyFormulas`; the print/parse
pair is the identity on everything the miner emits. -/
inductive Cond where
  | streak (len : ℕ) (val : String)
  | ngram (n : ℕ) (pat : List String)
  | freqImb (val : String) (pct window : ℕ)
  | alt (len : ℕ)
  | trans (src : String)
  | numCluster (window : ℕ)
  | dblRepeat (len : ℕ) (val : String)
deriving DecidableEq, Repr

/-- A mined IF-THEN formula (source interface `Formula`; the presentational
`description` field is omitted).  The stored confidence
`Math.round(conf * 1000) / 1000` always has exactly three decimals, so it
is carried as its integer numerator `conf1000` (thousandths); the rational
value is recovered by `Formula.confidence`.  This keeps the whole mining
pipeline computable by the kernel (rational normalisation is not). -/
structure Formula where
  id : String
  type : String
  cond : Cond
  prediction : String
  conf1000 : ℕ
  support : ℕ
deriving DecidableEq, Repr

/-- The confidence of a formula as the source stores it:
`Math.round(conf * 1000) / 1000`. -/
def Formula.confidence (f : Formula) : ℚ :=
  (f.conf1000 : ℚ) / 1000

/-- The ranking score in integer form (`score` scaled by 1000). -/
def scoreKey (f : Formula) : ℕ :=
  f.conf1000 * f.support

/-- `Math.round` on a nonnegative rational (round half up). -/
def jsRound (q : ℚ) : ℤ :=
  ⌊q + 1/2⌋

/-- `Math.round(conf * 1000) / 1000` — confidence as stored on a formula,
as a rational. -/
def roundConf (c : ℚ) : ℚ :=
  (jsRound (c * 1000) : ℚ) / 1000

/-- `matches > 0 ? correct / matches : 0` — guarded confidence ratio. -/
def ratioConf (correct matchCnt : ℕ) : ℚ :=
  if 0 < matchCnt then (correct : ℚ) / matchCnt else 0

/-- `Math.round(1000 * correct / matchCnt)` computed with integer
arithmetic: `⌊1000c/m + 1/2⌋ = ⌊(2000c + m) / (2m)⌋`; the `matchCnt = 0`
branch mirrors the source's `matches > 0 ? correct / matches : 0` guard.
`confRound1000_cast` proves this equal to `jsRound (ratioConf c m * 1000)`. -/
def confRound1000 (correct matchCnt : ℕ) : ℕ :=
  if matchCnt = 0 then 0 else (2000 * correct + matchCnt) / (2 * matchCnt)

/-- Whether a condition belongs to the double/triple-repeat family, which
uses the relaxed support floor `totalLen * MIN_SUPPORT_PCT * 0.5`. -/
def isDblRep : Cond → Bool
  | .dblRepeat _ _ => true
  | _ => false

/-- The retention guard and construction shared by all seven rule families
(each family in the source repeats this pattern inline, lines 79–93,
110–127, 145–159, 179–192, 204–219, 237–250, 274–289):
keep the candidate iff its support reaches the floor
(`matches ≥ totalLen * 0.03`, halved for the double-repeat family) and its
confidence reaches `MIN_FORMULA_CONFIDENCE = 0.55`; the stored confidence
is rounded to three decimals.  All guards are in exact integer form:
`100 * matches ≥ 3 * L` is `matches ≥ L * 0.03`, and
`0 < matches ∧ 11 * matches ≤ 20 * correct` is
`(matches > 0 ? correct/matches : 0) ≥ 0.55` (lemma `conf_guard_iff`). -/
def mkFormula (L : ℕ) (fid fty : String) (c : Cond) (pred : String)
    (correct matchCnt : ℕ) : Option Formula :=
  if (if isDblRep c then 200 * matchCnt ≥ 3 * L else 100 * matchCnt ≥ 3 * L)
      ∧ (0 < matchCnt ∧ 11 * matchCnt ≤ 20 * correct) then
    some ⟨fid, fty, c, pred, confRound1000 correct matchCnt, matchCnt⟩
  else none

/-- The index range `[lo, hi)` scanned by a mining loop. -/
def scanIdxs (lo hi : ℕ) : List ℕ :=
  List.range' lo (hi - lo)

/-- `IF last len results = val` evaluated at scan position `i`
(source lines 69–72). -/
def isStreakAt (seq : List String) (val : String) (len i : ℕ) : Bool :=
  (scanIdxs 1 (len + 1)).all (fun j => seq.getD (i - j) "" == val)

/-- RULE 1: streak-reversal candidates (source lines 65–95). -/
def streakRules (seq : List String) (o0 o1 : String) (L : ℕ) : List Formula :=
  [3, 4, 5, 6].flatMap (fun len =>
    [o0, o1].filterMap (fun val =>
      let idxs := (scanIdxs len L).filter (fun i => isStreakAt seq val len i)
      let opposite := flipLabel o0 o1 val
      let correct := (idxs.filter (fun i => seq.getD i "" == opposite)).length
      mkFormula L ("streak_rev_" ++ toString len ++ "_" ++ val)
        "streak_reversal" (Cond.streak len val) opposite correct idxs.length))

/-- The `(pattern, next)` pairs scanned by the n-gram loop
(source lines 101–109): windows `seq.slice(i, i+n)` with successor
`seq[i+n]`, for `0 ≤ i ≤ totalLen - n - 1`. -/
def ngramWindows (seq : List String) (n : ℕ) : List (List String × String) :=
  (List.range (seq.length - n)).map
    (fun i => ((seq.drop i).take n, seq.getD (i + n) ""))

/-- Distinct keys in first-occurrence order, with an accumulator of keys
already seen. -/
def firstKeysAux : List (List String) → List (List String) → List (List String)
  | [], _ => []
  | x :: xs, seen =>
    if seen.contains x then firstKeysAux xs seen
    else x :: firstKeysAux xs (x :: seen)

/-- Distinct keys in first-occurrence order: the iteration order of
`Object.entries(patternCounts)` (string keys, insertion order). -/
def firstKeys (l : List (List String)) : List (List String) :=
  firstKeysAux l []

/-- RULE 2: n-gram pattern candidates (source lines 98–128).  The counter
`total` is `outs.reduce((s,o) => s + counts[o], 0)` and the per-label count
is `patternCounts[pattern][out]`. -/
def ngramRules (seq : List String) (o0 o1 : String) (L : ℕ) : List Formula :=
  [2, 3, 4, 5].flatMap (fun n =>
    if L < n + 1 then [] else
    let occs := ngramWindows seq n
    let keys := firstKeys (occs.map Prod.fst)
    keys.flatMap (fun pat =>
      let cnt := fun (out : String) =>
        (occs.filter (fun oc => oc.1 == pat && oc.2 == out)).length
      let total := cnt o0 + cnt o1
      [o0, o1].filterMap (fun out =>
        mkFormula L
          ("ngram_" ++ toString n ++ "_" ++ String.intercalate "," pat
            ++ "_" ++ out)
          (toString n ++ "gram_pattern") (Cond.ngram n pat) out
          (cnt out) total)))

/-- RULE 3: frequency-imbalance candidates (source lines 131–162).
Thresholds are carried as integer percents `70/80/90`; the test
`dominantCount / window ≥ threshold` is the exact integer comparison
`100 * dominantCount ≥ pct * window`. -/
def freqRules (seq : List String) (o0 o1 : String) (L : ℕ) : List Formula :=
  [5, 8, 10, 15].flatMap (fun w =>
    if L < w + 1 then [] else
    [70, 80, 90].flatMap (fun pct =>
      [o0, o1].filterMap (fun dv =>
        let idxs := (scanIdxs w L).filter (fun i =>
          100 * (((seq.drop (i - w)).take w).filter (fun v => v == dv)).length
            ≥ pct * w)
        let opposite := flipLabel o0 o1 dv
        let correct := (idxs.filter (fun i => seq.getD i "" == opposite)).length
        mkFormula L
          ("freq_imb_" ++ toString w ++ "_" ++ toString pct ++ "_" ++ dv)
          "frequency_imbalance" (Cond.freqImb dv pct w) opposite correct
          idxs.length)))

/-- `IF last len alternate perfectly` evaluated at scan position `i`
(source lines 169–172): adjacent labels of the preceding `len`-window all
differ. -/
def isAltAt (seq : List String) (len i : ℕ) : Bool :=
  (scanIdxs 1 len).all (fun j => !(seq.getD (i - j) "" == seq.getD (i - j - 1) ""))

/-- RULE 4: alternation candidates (source lines 165–193); the prediction
is the symbolic tag `CONTINUE_ALT`, resolved at application time. -/
def altRules (seq : List String) (o0 o1 : String) (L : ℕ) : List Formula :=
  [3, 4, 5, 6].filterMap (fun len =>
    if L < len + 1 then none else
    let idxs := (scanIdxs len L).filter (fun i => isAltAt seq len i)
    let correct := (idxs.filter (fun i =>
      seq.getD i "" == flipLabel o0 o1 (seq.getD (i - 1) ""))).length
    mkFormula L ("alt_" ++ toString len) "alternation" (Cond.alt len)
      "CONTINUE_ALT" correct idxs.length)

/-- RULE 5: first-order transition candidates (source lines 196–220). -/
def transRules (seq : List String) (o0 o1 : String) (L : ℕ) : List Formula :=
  let tcount := fun (a b : String) =>
    ((scanIdxs 1 L).filter (fun i =>
      seq.getD (i - 1) "" == a && seq.getD i "" == b)).length
  [o0, o1].flatMap (fun src =>
    let total := tcount src o0 + tcount src o1
    [o0, o1].filterMap (fun dst =>
      mkFormula L ("trans_" ++ src ++ "_" ++ dst) "transition"
        (Cond.trans src) dst (tcount src dst) total))

/-- RULE 6: number-range clustering candidates, size mode only
(source lines 223–252).  `avg ≤ 3` and `avg ≥ 6` over a window of `w`
numbers are the exact integer comparisons `sum ≤ 3*w` and `sum ≥ 6*w`. -/
def nclusterRules (m : Mode) (seq : List String) (nums : List ℕ) (L : ℕ) :
    List Formula :=
  if m = Mode.size ∧ 20 ≤ L then
    [5, 8, 10].filterMap (fun w =>
      if L < w + 1 then none else
      let ssum := fun i => ((nums.drop (i - w)).take w).sum
      let idxs := (scanIdxs w L).filter (fun i =>
        ssum i ≤ 3 * w || 6 * w ≤ ssum i)
      let correct := (idxs.filter (fun i =>
        if ssum i ≤ 3 * w then seq.getD i "" == "SMALL"
        else seq.getD i "" == "BIG")).length
      mkFormula L ("num_cluster_" ++ toString w) "number_clustering"
        (Cond.numCluster w) "FOLLOW_TREND" correct idxs.length)
  else []

/-- `IF val repeated r x twice` evaluated at scan position `i`
(source lines 261–267). -/
def isDblRepAt (seq : List String) (val : String) (r i : ℕ) : Bool :=
  (List.range r).all (fun j =>
    seq.getD (i - 1 - j) "" == val && seq.getD (i - 1 - j - r) "" == val)

/-- RULE 7: double/triple-repeat candidates (source lines 255–290);
retention uses the relaxed floor via `isDblRep`. -/
def dblRepRules (seq : List String) (o0 o1 : String) (L : ℕ) : List Formula :=
  [2, 3].flatMap (fun r =>
    if L < 2 * r + 1 then [] else
    [o0, o1].filterMap (fun val =>
      let idxs := (scanIdxs (2 * r) L).filter (fun i => isDblRepAt seq val r i)
      let opposite := flipLabel o0 o1 val
      let correct := (idxs.filter (fun i => seq.getD i "" == opposite)).length
      mkFormula L ("dbl_repeat_" ++ toString r ++ "_" ++ val)
        "double_repeat" (Cond.dblRepeat r val) opposite correct idxs.length))

/-- All surviving candidates across the seven families, in the discovery
order of the source (`formulas.push` order). -/
def candidateRules (m : Mode) (seq : List String) (nums : List ℕ) :
    List Formula :=
  let L := seq.length
  let o0 := outs0 m
  let o1 := outs1 m
  streakRules seq o0 o1 L ++ ngramRules seq o0 o1 L ++ freqRules seq o0 o1 L
    ++ altRules seq o0 o1 L ++ transRules seq o0 o1 L
    ++ nclusterRules m seq nums L ++ dblRepRules seq o0 o1 L

/-- Descending-score order used by the final sort: `a` may come before `b`
iff `score b ≤ score a` (stated on the integer score; `scoreGE_iff` proves
it equivalent to the rational comparison). -/
def scoreGE (a b : Formula) : Prop :=
  scoreKey b ≤ scoreKey a

instance : DecidableRel scoreGE := fun a b =>
  inferInstanceAs (Decidable (scoreKey b ≤ scoreKey a))

/-- The ranked candidate list: `formulas.sort((a,b) => b.score - a.score)`.
JavaScript `Array.prototype.sort` is stable, and a stable sort by weakly
descending score is exactly insertion sort with `scoreGE`. -/
def rankedCandidates (m : Mode) (seq : List String) (nums : List ℕ) :
    List Formula :=
  (candidateRules m seq nums).insertionSort scoreGE

/-- `extractRules` (source lines 54–295): below 10 records it returns no
rules; otherwise the merged candidates are sorted by `confidence × support`
descending (stably) and truncated to the top 30. -/
def extractRules (history : List GameRecord) (m : Mode) : List Formula :=
  let f := extractFeatures history m
  if f.seq.length < 10 then [] else
  (rankedCandidates m f.seq f.nums).take 30

/-! ## The rule applier (`applyFormulas`, source lines 298–415) -/

/-- `xs.slice(-n)` for `n ≥ 1`: the last `n` elements.
(For `n = 0` JavaScript `slice(-0)` returns the whole array; the applier is
only used with windows `≥ 1`, cf. `Formula.wf`.) -/
def tailN {α : Type} (l : List α) (n : ℕ) : List α :=
  l.drop (l.length - n)

/-- The applier's in-place alternation check (source lines 361–364):
adjacent elements all differ. -/
def isAltList : List String → Bool
  | [] => true
  | [_] => true
  | a :: b :: rest => !(a == b) && isAltList (b :: rest)

/-- One iteration of the applier's `for (const formula of formulas)` loop:
`some (prediction, formula)` if this formula fires (returns), `none` if the
loop falls through to the next formula.  Each branch mirrors the
corresponding `case` of the source `switch` (the source recovers the
parameters from the condition string by regex; here they are carried
structurally). -/
def tryFormula (f : Formula) (seq : List String) (nums : List ℕ)
    (o0 o1 : String) : Option (String × Option Formula) :=
  match f.cond with
  | .streak len val =>
    if len ≤ seq.length ∧ (tailN seq len).all (fun v => v == val) then
      some (f.prediction, some f)
    else none
  | .ngram n pat =>
    if n ≤ seq.length ∧ tailN seq n = pat then
      some (f.prediction, some f)
    else none
  | .freqImb val pct w =>
    if w ≤ seq.length ∧
        100 * ((tailN seq w).filter (fun v => v == val)).length ≥ pct * w then
      some (f.prediction, some f)
    else none
  | .alt len =>
    if len ≤ seq.length ∧ isAltList (tailN seq len) then
      some (flipLabel o0 o1 (seq.getLastD ""), some f)
    else none
  | .trans src =>
    if 0 < seq.length ∧ seq.getLastD "" = src then
      some (f.prediction, some f)
    else none
  | .numCluster w =>
    if w ≤ nums.length then
      let s := (tailN nums w).sum
      if s ≤ 3 * w then some ("SMALL", some f)
      else if 6 * w ≤ s then some ("BIG", some f)
      else none
    else none
  | .dblRepeat r val =>
    if 2 * r ≤ seq.length ∧ (tailN seq (2 * r)).all (fun v => v == val) then
      some (f.prediction, some f)
    else none

/-- The applier loop: first firing formula wins. -/
def applyGo (seq : List String) (nums : List ℕ) (o0 o1 : String) :
    List Formula → Option (String × Option Formula)
  | [] => none
  | f :: fs =>
    match tryFormula f seq nums o0 o1 with
    | some res => some res
    | none => applyGo seq nums o0 o1 fs

/-- `applyFormulas` (source lines 298–415): walk the stored formula list in
order; if none fires, fall back to reversing the last observed label
(lines 410–413), and on an empty sequence to `outs[0]` (line 414). -/
def applyFormulas (formulas : List Formula) (history : List GameRecord)
    (m : Mode) : String × Option Formula :=
  let F := extractFeatures history m
  let o0 := outs0 m
  let o1 := outs1 m
  match applyGo F.seq F.nums o0 o1 formulas with
  | some res => res
  | none =>
    if F.seq.length ≠ 0 then (flipLabel o0 o1 (F.seq.getLastD ""), none)
    else (o0, none)

/-- Specification-side decomposition of one applier iteration: whether the
formula's condition holds on the current tail. -/
def condHolds (f : Formula) (seq : List String) (nums : List ℕ) : Bool :=
  match f.cond with
  | .streak len val => len ≤ seq.length ∧ (tailN seq len).all (fun v => v == val)
  | .ngram n pat => n ≤ seq.length ∧ tailN seq n = pat
  | .freqImb val pct w =>
    w ≤ seq.length ∧
      100 * ((tailN seq w).filter (fun v => v == val)).length ≥ pct * w
  | .alt len => len ≤ seq.length ∧ isAltList (tailN seq len)
  | .trans src => 0 < seq.length ∧ seq.getLastD "" = src
  | .numCluster w =>
    w ≤ nums.length ∧
      ((tailN nums w).sum ≤ 3 * w ∨ 6 * w ≤ (tailN nums w).sum)
  | .dblRepeat r val =>
    2 * r ≤ seq.length ∧ (tailN seq (2 * r)).all (fun v => v == val)

/-- Specification-side decomposition: the label a firing formula predicts.
For the symbolic predictions (`CONTINUE_ALT`, `FOLLOW_TREND`) this is the
label the applier resolves them to; for all other families it is the
formula's stored prediction. -/
def firedPred (f : Formula) (seq : List String) (nums : List ℕ)
    (o0 o1 : String) : String :=
  match f.cond with
  | .alt _ => flipLabel o0 o1 (seq.getLastD "")
  | .numCluster w => if (tailN nums w).sum ≤ 3 * w then "SMALL" else "BIG"
  | _ => f.prediction

/-- Well-formedness of a condition: every window parameter is positive.
All formulas produced by `extractRules` satisfy this (window parameters
come from the fixed lists `[3..6]`, `[2..5]`, `[5..15]`, `[2,3]`). -/
def condWF : Cond → Bool
  | .streak len _ => decide (1 ≤ len)
  | .ngram n _ => decide (1 ≤ n)
  | .freqImb _ _ w => decide (1 ≤ w)
  | .alt len => decide (1 ≤ len)
  | .trans _ => true
  | .numCluster w => decide (1 ≤ w)
  | .dblRepeat r _ => decide (1 ≤ r)

/-- Well-formedness of a stored formula. -/
def Formula.wf (f : Formula) : Prop :=
  condWF f.cond = true

instance (f : Formula) : Decidable f.wf :=
  inferInstanceAs (Decidable (condWF f.cond = true))

/-! ## The backfill heuristic (source lines 741–768) -/

/-- The realized label of an observation in a mode (source lines 743–745 /
573–575: `col` and `sz`). -/
def actualLabel (r : GameRecord) (m : Mode) : String :=
  match m with
  | .color => if hasRedSub r.color then "RED" else "GREEN"
  | .size => if r.number ≤ 4 then "SMALL" else "BIG"

/-- The backfill prediction expression (source lines 753–756), verbatim:
`seq[seq.length-1] === (m === "color" ? "RED" : "GREEN") ?
 (m === "color" ? "GREEN" : "SMALL") : (m === "color" ? "RED" : "BIG")`
computed on the features of the strictly prior records. -/
def bfPrediction (prior : List GameRecord) (m : Mode) : String :=
  let seq := (extractFeatures prior m).seq
  if seq.getLastD "" = (match m with | .color => "RED" | .size => "GREEN")
  then (match m with | .color => "GREEN" | .size => "SMALL")
  else (match m with | .color => "RED" | .size => "BIG")

/-- The backfill decision for the period at position `idx` of the stored
history: `prior = allResults.slice(0, idx)` (the source computes `idx` by
`allResults.indexOf(result)`, which is the position of the iterated row),
and a prediction is produced only when `prior.length ≥ 3`. -/
def bfPredAt (rs : List GameRecord) (idx : ℕ) (m : Mode) : Option String :=
  let prior := rs.take idx
  if 3 ≤ prior.length then some (bfPrediction prior m) else none

/-- A stored prediction row (`predictions` table); the presentational
`formula_applied` payload is omitted. -/
structure PredRec where
  issue : String
  mode : Mode
  prediction : String
  correct : Option Bool
deriving DecidableEq, Repr

/-- One `(result, mode)` iteration of the backfill loop (source lines
747–767): skip if a prediction for this key exists, create a resolved
prediction when at least three records strictly precede. -/
def bfItem (rs : List GameRecord) (idx : ℕ) (r : GameRecord) (m : Mode)
    (keys : List (String × Mode)) : List PredRec × List (String × Mode) :=
  if keys.contains (r.issue_number, m) then ([], keys) else
  match bfPredAt rs idx m with
  | some pred =>
    ([⟨r.issue_number, m, pred, some (pred = actualLabel r m)⟩],
      keys ++ [(r.issue_number, m)])
  | none => ([], keys)

/-- The backfill loop over the indexed history, threading the set of
already-present `(period, mode)` keys exactly as the source threads
`predMap`. -/
def backfillGo (rs : List GameRecord) :
    List (ℕ × GameRecord) → List (String × Mode) → List PredRec
  | [], _ => []
  | (idx, r) :: rest, keys =>
    let a := bfItem rs idx r Mode.color keys
    let b := bfItem rs idx r Mode.size a.2
    a.1 ++ b.1 ++ backfillGo rs rest b.2

/-- Step 9 of the handler: backfill predictions for all historical periods
lacking one, given the keys already present in `predMap`. -/
def backfillLoop (rs : List GameRecord) (keys : List (String × Mode)) :
    List PredRec :=
  backfillGo rs rs.enum keys

/-! ## Successor-period computation (source lines 597–604) -/

/-- The characters stripped by ECMAScript `StringToBigInt`:
`StrWhiteSpaceChar = WhiteSpace ∪ LineTerminator`, i.e. TAB, LF, VT, FF,
CR, SP, NBSP, ZWNBSP (U+FEFF), the Unicode space separators (category Zs)
and the line/paragraph separators U+2028/U+2029. -/
def jsWsChars : List Char :=
  ['\t', '\n', '\u000B', '\u000C', '\r', ' ', '\u00A0', '\u1680',
    '\u2000', '\u2001', '\u2002', '\u2003', '\u2004', '\u2005',
    '\u2006', '\u2007', '\u2008', '\u2009', '\u200A', '\u2028',
    '\u2029', '\u202F', '\u205F', '\u3000', '\uFEFF']

/-- Whether a character is ECMAScript `StrWhiteSpaceChar`. -/
def jsWhitespace (c : Char) : Bool :=
  jsWsChars.contains c

/-- ECMAScript whitespace trimming of `StringToBigInt`, on char lists. -/
def trimChars (l : List Char) : List Char :=
  ((l.dropWhile jsWhitespace).reverse.dropWhile jsWhitespace).reverse

/-- Decimal digit value. -/
def decVal (c : Char) : Option ℕ :=
  if c.isDigit then some (c.toNat - 48) else none

/-- Hexadecimal digit value. -/
def hexVal (c : Char) : Option ℕ :=
  if c.isDigit then some (c.toNat - 48)
  else if 'a' ≤ c ∧ c ≤ 'f' then some (c.toNat - 87)
  else if 'A' ≤ c ∧ c ≤ 'F' then some (c.toNat - 55)
  else none

/-- Octal digit value. -/
def octVal (c : Char) : Option ℕ :=
  if '0' ≤ c ∧ c ≤ '7' then some (c.toNat - 48) else none

/-- Binary digit value. -/
def binVal (c : Char) : Option ℕ :=
  if c = '0' then some 0 else if c = '1' then some 1 else none

/-- Nonempty digit-string parse in a given base. -/
def parseDigitsBase (base : ℕ) (dval : Char → Option ℕ) :
    List Char → Option ℕ
  | [] => none
  | l => l.foldl (fun acc c =>
      match acc, dval c with
      | some a, some d => some (base * a + d)
      | _, _ => none) (some 0)

/-- ECMAScript `StringToBigInt` (the semantics of `BigInt(latestIssue)`):
trim whitespace; empty means `0`; `0x`/`0o`/`0b` prefixes select a
non-decimal literal; otherwise an optional sign followed by decimal digits;
anything else throws (modelled as `none`). -/
def jsStringToBigInt (s : String) : Option ℤ :=
  match trimChars s.data with
  | [] => some 0
  | '0' :: 'x' :: rest => (parseDigitsBase 16 hexVal rest).map Int.ofNat
  | '0' :: 'X' :: rest => (parseDigitsBase 16 hexVal rest).map Int.ofNat
  | '0' :: 'o' :: rest => (parseDigitsBase 8 octVal rest).map Int.ofNat
  | '0' :: 'O' :: rest => (parseDigitsBase 8 octVal rest).map Int.ofNat
  | '0' :: 'b' :: rest => (parseDigitsBase 2 binVal rest).map Int.ofNat
  | '0' :: 'B' :: rest => (parseDigitsBase 2 binVal rest).map Int.ofNat
  | '+' :: rest => (parseDigitsBase 10 decVal rest).map Int.ofNat
  | '-' :: rest => (parseDigitsBase 10 decVal rest).map (fun n => -(n : ℤ))
  | l => (parseDigitsBase 10 decVal l).map Int.ofNat

/-- The successor-period computation (source lines 599–604):
`try { nextIssue = (BigInt(latestIssue) + 1n).toString() }
 catch { nextIssue = latestIssue + "?" }`. -/
def nextIssueOf (latestIssue : String) : String :=
  match jsStringToBigInt latestIssue with
  | some n => toString (n + 1)
  | none => latestIssue ++ "?"

/-! ## The per-mode counter / retrain policy and the handler step
(source lines 503–806, deterministic path: no AI key configured).
Database relations are modelled as in-memory lists kept in insertion
order; `extracted_at` timestamps are modelled by strictly increasing
numeric row ids, so "latest `extracted_at`" is "last inserted". -/

/-- One row of the `formula_sets` table. -/
structure FormulaSetRow where
  id : ℕ
  mode : Mode
  formulas : List Formula
  accuracy : ℚ
  total_predictions : ℕ
  correct_predictions : ℕ
  consecutive_failures : ℕ
  is_active : Bool
deriving DecidableEq, Repr

/-- The active-set query (source lines 616–623): mode match, active,
ordered by `extracted_at` descending, first row. -/
def findActive (sets : List FormulaSetRow) (m : Mode) :
    Option FormulaSetRow :=
  (sets.filter (fun r => r.mode == m && r.is_active)).getLast?

/-- Lookup of `predMap.get(issue|mode)`. -/
def lookupPred (preds : List PredRec) (iss : String) (m : Mode) :
    Option PredRec :=
  preds.find? (fun p => p.issue == iss && p.mode == m)

/-- `predMap.has(issue|mode)`. -/
def hasPred (preds : List PredRec) (iss : String) (m : Mode) : Bool :=
  (lookupPred preds iss m).isSome

/-- The counter update applied to the active set when the latest period's
prediction is resolved (source lines 642–651). -/
def updateCounters (A : FormulaSetRow) (b : Bool) : FormulaSetRow :=
  let newFailures := if b then 0 else A.consecutive_failures + 1
  let newCorrect :=
    if b then A.correct_predictions + 1 else A.correct_predictions
  let newTotal := A.total_predictions + 1
  { A with
    consecutive_failures := newFailures,
    correct_predictions := newCorrect,
    total_predictions := newTotal,
    accuracy := if 0 < newTotal then (newCorrect : ℚ) / newTotal else 0 }

/-- `update(...).eq("id", row.id)`. -/
def setRow (sets : List FormulaSetRow) (row : FormulaSetRow) :
    List FormulaSetRow :=
  sets.map (fun r => if r.id == row.id then row else r)

/-- The `formula_sets` state after the conditional counter update of one
mode iteration (source lines 638–657): the update happens iff an active
set exists and the latest period's prediction exists and is resolved. -/
def counterPhase (preds : List PredRec) (sets : List FormulaSetRow)
    (latestIssue : String) (m : Mode) : List FormulaSetRow :=
  match findActive sets m with
  | none => sets
  | some A =>
    match lookupPred preds latestIssue m with
    | some p =>
      match p.correct with
      | some b => setRow sets (updateCounters A b)
      | none => sets
    | none => sets

/-- Whether the mode iteration sets `needsRetrain` (source lines 628–661):
no active set, or `consecutive_failures ≥ MAX_CONSECUTIVE_FAILURES` before
the update, or the updated failure counter reaches the threshold. -/
def retrainTriggered (preds : List PredRec) (sets : List FormulaSetRow)
    (latestIssue : String) (m : Mode) : Bool :=
  match findActive sets m with
  | none => true
  | some A =>
    decide (3 ≤ A.consecutive_failures) ||
    (match lookupPred preds latestIssue m with
     | some p =>
       match p.correct with
       | some b => decide (3 ≤ if b then 0 else A.consecutive_failures + 1)
       | none => false
     | none => false)

/-- A freshly mined, freshly activated formula set (source lines 679–687). -/
def freshRow (nid : ℕ) (m : Mode) (fs : List Formula) : FormulaSetRow :=
  ⟨nid, m, fs, 0, 0, 0, 0, true⟩

/-- `update({is_active: false}).eq("mode", m)` (source lines 669–671). -/
def deactivateMode (sets : List FormulaSetRow) (m : Mode) :
    List FormulaSetRow :=
  sets.map (fun r => if r.mode == m then { r with is_active := false } else r)

/-- The retrain branch (source lines 664–688): deactivate every set of the
mode, then insert the freshly mined active set with zeroed counters. -/
def retrainPhase (sets : List FormulaSetRow) (m : Mode) (fs : List Formula)
    (nid : ℕ) : List FormulaSetRow :=
  deactivateMode sets m ++ [freshRow nid m fs]

/-- One iteration of the handler's per-mode loop (source lines 611–739),
on the deterministic path (no AI key): returns the updated `formula_sets`
state, the new prediction rows pushed for this mode, and the next fresh
row id. -/
def processMode (allResults : List GameRecord) (latestIssue nextIssue : String)
    (preds : List PredRec) (sets : List FormulaSetRow) (nid : ℕ) (m : Mode) :
    List FormulaSetRow × List PredRec × ℕ :=
  if hasPred preds nextIssue m then (sets, [], nid) else
  let sets1 := counterPhase preds sets latestIssue m
  let retrain := retrainTriggered preds sets latestIssue m
  let formulas :=
    if retrain then extractRules allResults m
    else (match findActive sets m with | some A => A.formulas | none => [])
  let sets2 := if retrain then retrainPhase sets1 m formulas nid else sets1
  let nid2 := if retrain then nid + 1 else nid
  let pr :=
    if formulas.length ≠ 0 then applyFormulas formulas allResults m
    else
      let seq := (extractFeatures allResults m).seq
      ((if seq.getLastD "" = (match m with | .color => "RED" | .size => "BIG")
        then (match m with | .color => "GREEN" | .size => "SMALL")
        else (match m with | .color => "RED" | .size => "BIG")), none)
  (sets2, [⟨nextIssue, m, pr.1, none⟩], nid2)

/-- Step 6 of the handler (source lines 571–595): resolve `correct` for
every stored prediction whose observation is available.  The source
iterates observations and patches each unresolved `(issue, mode)` record;
with unique `issue_number`s this is the same as patching each prediction
from its matching observation. -/
def resolvePreds (allResults : List GameRecord) (preds : List PredRec) :
    List PredRec :=
  preds.map (fun p =>
    if p.correct = none then
      match allResults.find? (fun r => r.issue_number == p.issue) with
      | some r => { p with correct := some (p.prediction = actualLabel r p.mode) }
      | none => p
    else p)

/-- Persistent state across invocations (the database). -/
structure DBState where
  preds : List PredRec
  sets : List FormulaSetRow
  nid : ℕ
deriving DecidableEq, Repr

/-- Step 10 of the handler: `upsert(newPredictions,
{onConflict: "issue_number,mode", ignoreDuplicates: true})`. -/
def insertNewPreds (preds newPreds : List PredRec) : List PredRec :=
  newPreds.foldl
    (fun acc p => if hasPred acc p.issue p.mode then acc else acc ++ [p]) preds

/-- One handler invocation (source lines 503–806) on the deterministic
path, given the merged, chronologically ordered observation list
`allResults` (steps 1–4; the upsert/trim of `game_results` belongs to the
storage collaborator).  A run with empty `allResults` throws in the source
(reading `allResults[length-1]`) and persists nothing; the model is only
used with nonempty histories. -/
def step (allResults : List GameRecord) (st : DBState) : DBState :=
  let preds1 := resolvePreds allResults st.preds
  let latestIssue := (allResults.getLastD ⟨"", 0, ""⟩).issue_number
  let nextIssue := nextIssueOf latestIssue
  let pc := processMode allResults latestIssue nextIssue preds1 st.sets st.nid
    Mode.color
  let ps := processMode allResults latestIssue nextIssue preds1 pc.1 pc.2.2
    Mode.size
  let bf := backfillLoop allResults (preds1.map (fun p => (p.issue, p.mode)))
  { preds := insertNewPreds preds1 (pc.2.1 ++ ps.2.1 ++ bf),
    sets := ps.1,
    nid := ps.2.2 }

/-! ## Ranking-order instances -/

instance : IsTotal Formula scoreGE :=
  ⟨fun a b => le_total (scoreKey b) (scoreKey a)⟩

instance : IsTrans Formula scoreGE :=
  ⟨fun _ _ _ hab hbc => le_trans hbc hab⟩

/-! ## Claim C7: backfill causality -/

/-- C7: a backfilled prediction for the period at position `idx` is a
function of the strictly prior observations only: two histories agreeing
on the prefix before `idx` yield the same backfill decision, whatever
stands at `idx` or later. -/
theorem c7_no_lookahead (rs₁ rs₂ : List GameRecord) (idx : ℕ) (m : Mode)
    (h : rs₁.take idx = rs₂.take idx) :
    bfPredAt rs₁ idx m = bfPredAt rs₂ idx m := by
  unfold bfPredAt
  rw [h]

/-- Concrete histories agreeing strictly before position 3 and differing
from position 3 on. -/
def c7HistA : List GameRecord :=
  [⟨"1", 1, "green"⟩, ⟨"2", 2, "red"⟩, ⟨"3", 3, "green"⟩, ⟨"4", 9, "red"⟩]

/-- Variant of `c7HistA` with different observations at positions ≥ 3. -/
def c7HistB : List GameRecord :=
  [⟨"1", 1, "green"⟩, ⟨"2", 2, "red"⟩, ⟨"3", 3, "green"⟩, ⟨"4", 0, "green"⟩,
    ⟨"5", 5, "red"⟩]

/-- C7 witness: the no-lookahead theorem applied to the concrete pair. -/
theorem c7_witness :
    c7HistA ≠ c7HistB ∧
      bfPredAt c7HistA 3 Mode.color = bfPredAt c7HistB 3 Mode.color :=
  ⟨by decide, c7_no_lookahead c7HistA c7HistB 3 Mode.color (by decide)⟩

/-! ## Claim C8: determinism of the miner -/

/-- C8: `extractRules` is a pure function of the history and the mode: two
invocations with equal inputs return identical ranked formula lists (ids,
conditions, predictions, confidences, supports and order included, since
the lists are equal as values).  The source has no randomness, clock or
iteration-order nondeterminism: object keys iterate in insertion order and
`Array.prototype.sort` is stable with a deterministic comparator. -/
theorem c8_deterministic (h₁ h₂ : List GameRecord) (m₁ m₂ : Mode)
    (hh : h₁ = h₂) (hm : m₁ = m₂) :
    extractRules h₁ m₁ = extractRules h₂ m₂ := by
  subst hh
  subst hm
  rfl

/-- A 10-record history with a perfectly alternating color sequence. -/
def altHist : List GameRecord :=
  (List.range 10).map (fun i =>
    { issue_number := toString (i + 1), number := i % 10,
      color := if i % 2 == 0 then "red" else "green" })

/-- C8 witness: re-mining the same window (written as two syntactically
different but equal histories) yields the identical list. -/
theorem c8_witness :
    extractRules altHist Mode.color
      = extractRules altHist.reverse.reverse Mode.color :=
  c8_deterministic altHist altHist.reverse.reverse Mode.color Mode.color
    (by simp) rfl

/-! ## Claim C9: successor-period computation -/

/-- The plain decimal reading of a digit string. -/
def digitsToNat (l : List Char) : ℕ :=
  l.foldl (fun a c => 10 * a + (c.toNat - 48)) 0

theorem ws_false_of_digit {c : Char} (h : c.isDigit = true) :
    jsWhitespace c = false := by
  cases hws : jsWhitespace c with
  | false => rfl
  | true =>
    exfalso
    have hmem : c ∈ jsWsChars := by
      simpa [jsWhitespace] using hws
    fin_cases hmem <;> exact absurd h (by decide)

theorem dropWhile_eq_self_of_not {p : Char → Bool} {l : List Char}
    (h : ∀ c ∈ l, p c = false) : l.dropWhile p = l := by
  cases l with
  | nil => rfl
  | cons c t => simp [List.dropWhile_cons, h c (List.mem_cons_self c t)]

theorem trimChars_of_digits {l : List Char} (h : ∀ c ∈ l, c.isDigit = true) :
    trimChars l = l := by
  have hws : ∀ c ∈ l, jsWhitespace c = false :=
    fun c hc => ws_false_of_digit (h c hc)
  unfold trimChars
  rw [dropWhile_eq_self_of_not hws,
    dropWhile_eq_self_of_not (fun c hc => hws c (List.mem_reverse.mp hc)),
    List.reverse_reverse]

theorem foldl_decVal {t : List Char} (h : ∀ c ∈ t, c.isDigit = true) :
    ∀ a : ℕ,
      t.foldl (fun acc c =>
          match acc, decVal c with
          | some x, some d => some (10 * x + d)
          | _, _ => none) (some a)
        = some (t.foldl (fun x c => 10 * x + (c.toNat - 48)) a) := by
  induction t with
  | nil => intro a; rfl
  | cons c t ih =>
    intro a
    have hc : decVal c = some (c.toNat - 48) := by
      unfold decVal
      rw [if_pos (h c (List.mem_cons_self c t))]
    simp only [List.foldl_cons, hc]
    exact ih (fun d hd => h d (List.mem_cons_of_mem c hd)) _

theorem parseDigitsBase_dec {l : List Char} (hne : l ≠ [])
    (h : ∀ c ∈ l, c.isDigit = true) :
    parseDigitsBase 10 decVal l = some (digitsToNat l) := by
  cases l with
  | nil => exact absurd rfl hne
  | cons c t =>
    unfold parseDigitsBase digitsToNat
    exact foldl_decVal h 0

theorem jsStringToBigInt_digits {s : String} (hne : s.data ≠ [])
    (h : ∀ c ∈ s.data, c.isDigit = true) :
    jsStringToBigInt s = some ((digitsToNat s.data : ℕ) : ℤ) := by
  have htrim : trimChars s.data = s.data := trimChars_of_digits h
  unfold jsStringToBigInt
  split
  case _ heq => rw [htrim] at heq; exact absurd heq hne
  case _ rest heq =>
    rw [htrim] at heq
    have : 'x' ∈ s.data := by rw [heq]; simp
    exact absurd (h _ this) (by decide)
  case _ rest heq =>
    rw [htrim] at heq
    have : 'X' ∈ s.data := by rw [heq]; simp
    exact absurd (h _ this) (by decide)
  case _ rest heq =>
    rw [htrim] at heq
    have : 'o' ∈ s.data := by rw [heq]; simp
    exact absurd (h _ this) (by decide)
  case _ rest heq =>
    rw [htrim] at heq
    have : 'O' ∈ s.data := by rw [heq]; simp
    exact absurd (h _ this) (by decide)
  case _ rest heq =>
    rw [htrim] at heq
    have : 'b' ∈ s.data := by rw [heq]; simp
    exact absurd (h _ this) (by decide)
  case _ rest heq =>
    rw [htrim] at heq
    have : 'B' ∈ s.data := by rw [heq]; simp
    exact absurd (h _ this) (by decide)
  case _ rest heq =>
    rw [htrim] at heq
    have : '+' ∈ s.data := by rw [heq]; simp
    exact absurd (h _ this) (by decide)
  case _ rest heq =>
    rw [htrim] at heq
    have : '-' ∈ s.data := by rw [heq]; simp
    exact absurd (h _ this) (by decide)
  case _ =>
    rw [htrim, parseDigitsBase_dec hne h]
    rfl

/-- C9: the successor computation is total.  If the latest `period_id`
parses as an arbitrary-precision integer (ECMAScript `BigInt(string)`
semantics) the result is the decimal rendering of that integer plus one;
otherwise the original string with the sentinel suffix `?` appended.  In
particular, on plain decimal digit strings the result is always the
decimal successor. -/
theorem c9_successor (s : String) :
    (∀ n : ℤ, jsStringToBigInt s = some n → nextIssueOf s = toString (n + 1)) ∧
    (jsStringToBigInt s = none → nextIssueOf s = s ++ "?") ∧
    (s.data ≠ [] → (∀ c ∈ s.data, c.isDigit = true) →
      nextIssueOf s = toString (((digitsToNat s.data : ℕ) : ℤ) + 1)) := by
    refine ⟨fun n hn => ?_, fun hn => ?_, fun hne hd => ?_⟩
    · unfold nextIssueOf
      rw [hn]
    · unfold nextIssueOf
      rw [hn]
    · unfold nextIssueOf
      rw [jsStringToBigInt_digits hne hd]

/-- C9 witness: the successor theorem applied to concrete period ids — a
decimal one, a binary-prefixed one (`BigInt("0b11") = 3`), one with a
leading vertical-tab (trimmed by `StringToBigInt`), and an unparsable
one. -/
theorem c9_witness :
    nextIssueOf "199" = "200" ∧ nextIssueOf "0b11" = "4" ∧
    nextIssueOf "\u000B12" = "13" ∧ nextIssueOf "20260x" = "20260x?" :=
  ⟨((c9_successor "199").2.2 (by decide) (by decide)).trans (by decide),
    ((c9_successor "0b11").1 3 (by decide)).trans (by decide),
    ((c9_successor "\u000B12").1 12 (by decide)).trans (by decide),
    (c9_successor "20260x").2.1 (by decide)⟩

/-! ## Claim C1: the backfill heuristic (code bug in size mode) -/

/-- Three strictly prior observations whose size labels are all `BIG`. -/
def c1Prior : List GameRecord :=
  [⟨"1", 5, "green"⟩, ⟨"2", 6, "green"⟩, ⟨"3", 7, "green"⟩]

/-- C1: evaluation of the backfill prediction expression at a failing
input.  The last prior size label is `BIG`, so the last-label-reversal
heuristic demanded by the claim (and by the specification) would predict
`SMALL`; the code predicts `BIG`, because the ternary at source lines
754–756 compares the size-mode label against the color label `"GREEN"`,
which can never match, so in size mode it always yields `"BIG"`.  (In
color mode the same expression does implement the reversal.)  The
analogous live-forecast fallback at lines 719–721 compares against
`"BIG"`, showing the backfill comparison is a slip. -/
theorem c1_size_backfill_no_reversal :
    (extractFeatures c1Prior Mode.size).seq.getLastD "" = "BIG" ∧
      bfPrediction c1Prior Mode.size = "BIG" := by
  decide

/-! ## Claim C10: the `prior.length ≥ 3` backfill gate -/

theorem bfItem_sound {rs : List GameRecord} {idx : ℕ} {r : GameRecord}
    {m : Mode} {keys : List (String × Mode)} {p : PredRec}
    (hp : p ∈ (bfItem rs idx r m keys).1) :
    p.issue = r.issue_number ∧ 3 ≤ idx := by
  unfold bfItem at hp
  split at hp
  · exact absurd hp (by simp)
  · split at hp
    case _ pred heq =>
      have hple : p = ⟨r.issue_number, m, pred, some (pred = actualLabel r m)⟩ := by
        simpa using hp
      refine ⟨by rw [hple], ?_⟩
      simp only [bfPredAt] at heq
      split at heq
      case _ h3 =>
        have := List.length_take idx rs ▸ h3
        exact le_trans (le_min_iff.mp this).1 le_rfl
      case _ => exact absurd heq (by simp)
    case _ => exact absurd hp (by simp)

theorem backfillGo_sound (rs : List GameRecord) :
    ∀ (items : List (ℕ × GameRecord)) (keys : List (String × Mode)),
      (∀ x ∈ items, rs[x.1]? = some x.2) →
      ∀ p ∈ backfillGo rs items keys,
        ∃ idx r, rs[idx]? = some r ∧ r.issue_number = p.issue ∧ 3 ≤ idx := by
  intro items
  induction items with
  | nil =>
    intro keys _ p hp
    simp [backfillGo] at hp
  | cons hd rest ih =>
    obtain ⟨idx, r⟩ := hd
    intro keys hit p hp
    simp only [backfillGo, List.mem_append] at hp
    have hr : rs[idx]? = some r := hit (idx, r) (List.mem_cons_self _ _)
    rcases hp with (hp | hp) | hp
    · obtain ⟨hiss, h3⟩ := bfItem_sound hp
      exact ⟨idx, r, hr, hiss.symm, h3⟩
    · obtain ⟨hiss, h3⟩ := bfItem_sound hp
      exact ⟨idx, r, hr, hiss.symm, h3⟩
    · exact ih _ (fun x hx => hit x (List.mem_cons_of_mem _ hx)) p hp

/-- C10: a backfilled prediction is created for a stored period only when
at least three observations strictly precede it (`prior.length ≥ 3`,
source line 752); consequently the periods at positions 0, 1, 2 of the
retained history never receive a backfilled prediction, in either mode. -/
theorem c10_backfill_gate (rs : List GameRecord) (keys : List (String × Mode))
    (hnd : (rs.map (·.issue_number)).Nodup) :
    (∀ p ∈ backfillLoop rs keys,
      ∃ idx r, rs[idx]? = some r ∧ r.issue_number = p.issue ∧ 3 ≤ idx) ∧
    (∀ idx r, idx < 3 → rs[idx]? = some r →
      ∀ p ∈ backfillLoop rs keys, p.issue ≠ r.issue_number) := by
  have main : ∀ p ∈ backfillLoop rs keys,
      ∃ idx r, rs[idx]? = some r ∧ r.issue_number = p.issue ∧ 3 ≤ idx := by
    refine backfillGo_sound rs rs.enum keys ?_
    intro x hx
    obtain ⟨i, a⟩ := x
    exact List.mk_mem_enum_iff_getElem?.mp hx
  refine ⟨main, ?_⟩
  intro idx r hlt hget p hp heq
  obtain ⟨idx', r', hget', hiss, h3⟩ := main p hp
  have hlen : idx < rs.length := (List.getElem?_eq_some.mp hget).1
  have hmap : (rs.map (·.issue_number))[idx]? = some p.issue := by
    rw [List.getElem?_map, hget]
    simp [heq]
  have hmap' : (rs.map (·.issue_number))[idx']? = some p.issue := by
    rw [List.getElem?_map, hget']
    simp [hiss]
  have : idx = idx' := by
    refine List.getElem?_inj ?_ hnd (hmap.trans hmap'.symm)
    rwa [List.length_map]
  omega

/-- A five-record history used for concrete traces (numbers 1–5, all
`green`). -/
def run1Results : List GameRecord :=
  (List.range 5).map (fun i =>
    { issue_number := toString (i + 1), number := i + 1, color := "green" })

/-- C10 witness: the gate theorem applied to the concrete history, showing
the backfilled record for period `"4"` sits at a position with at least
three strict predecessors. -/
theorem c10_witness :
    ∃ idx r, run1Results[idx]? = some r ∧ r.issue_number = "4" ∧ 3 ≤ idx :=
  (c10_backfill_gate run1Results [] (by decide)).1
    ⟨"4", Mode.color, "RED", some false⟩ (by decide)

/-! ## Claim C3: retrain deactivates all prior sets and activates exactly
one zero-counter freshly mined set -/

/-- The number of active `formula_sets` rows of a mode. -/
def activeCount (sets : List FormulaSetRow) (m : Mode) : ℕ :=
  (sets.filter (fun r => r.mode == m && r.is_active)).length

/-- The `(mode, is_active)` footprint of a row. -/
def modeActive (r : FormulaSetRow) : Mode × Bool :=
  (r.mode, r.is_active)

theorem activeCount_eq (l : List FormulaSetRow) (m : Mode) :
    activeCount l m
      = ((l.map modeActive).filter (fun x => x.1 == m && x.2)).length := by
  unfold activeCount
  rw [List.filter_map, List.length_map]
  rfl

theorem findActive_mem {sets : List FormulaSetRow} {m : Mode}
    {A : FormulaSetRow} (h : findActive sets m = some A) :
    A ∈ sets ∧ A.mode = m ∧ A.is_active = true := by
  unfold findActive at h
  have hmem := List.mem_of_mem_getLast? h
  have hf := List.mem_filter.mp hmem
  refine ⟨hf.1, ?_, ?_⟩
  · have := hf.2
    simp only [Bool.and_eq_true, beq_iff_eq] at this
    exact this.1
  · have := hf.2
    simp only [Bool.and_eq_true, beq_iff_eq] at this
    exact this.2

theorem counterPhase_modeActive (preds : List PredRec)
    (sets : List FormulaSetRow) (latestIssue : String) (m : Mode)
    (hid : (sets.map (·.id)).Nodup) :
    (counterPhase preds sets latestIssue m).map modeActive
      = sets.map modeActive := by
  unfold counterPhase
  split
  · rfl
  case _ A hA =>
    split
    case _ p hp =>
      split
      case _ b hb =>
        unfold setRow
        rw [List.map_map]
        refine List.map_congr_left ?_
        intro r hr
        by_cases hidq : (r.id == (updateCounters A b).id) = true
        · have hAmem := (findActive_mem hA).1
          have hidAr : r.id = A.id := by
            have : (updateCounters A b).id = A.id := rfl
            rw [this] at hidq
            exact beq_iff_eq.mp hidq
          have hrA : r = A :=
            List.inj_on_of_nodup_map hid hr hAmem hidAr
          subst hrA
          simp [Function.comp, hidq, modeActive, updateCounters]
        · simp [Function.comp, hidq]
      case _ => rfl
    case _ => rfl

theorem activeCount_counterPhase (preds : List PredRec)
    (sets : List FormulaSetRow) (latestIssue : String) (m m' : Mode)
    (hid : (sets.map (·.id)).Nodup) :
    activeCount (counterPhase preds sets latestIssue m) m'
      = activeCount sets m' := by
  rw [activeCount_eq, activeCount_eq,
    counterPhase_modeActive preds sets latestIssue m hid]

theorem filter_retrainPhase (sets : List FormulaSetRow) (m : Mode)
    (fs : List Formula) (nid : ℕ) :
    (retrainPhase sets m fs nid).filter (fun r => r.mode == m && r.is_active)
      = [freshRow nid m fs] := by
  unfold retrainPhase deactivateMode
  rw [List.filter_append]
  have h1 : (sets.map (fun r =>
      if r.mode == m then { r with is_active := false } else r)).filter
        (fun r => r.mode == m && r.is_active) = [] := by
    rw [List.filter_eq_nil_iff]
    intro a ha
    obtain ⟨r, hr, rfl⟩ := List.mem_map.mp ha
    by_cases hm : (r.mode == m) = true
    · simp [hm]
    · simp [hm]
  rw [h1]
  simp [freshRow]

theorem activeCount_retrainPhase_other (sets : List FormulaSetRow)
    (m m' : Mode) (fs : List Formula) (nid : ℕ) (hne : m' ≠ m) :
    activeCount (retrainPhase sets m fs nid) m' = activeCount sets m' := by
  unfold activeCount retrainPhase deactivateMode
  rw [List.filter_append, List.filter_map]
  have h2 : ([freshRow nid m fs].filter
      (fun r => r.mode == m' && r.is_active)) = [] := by
    simp [freshRow, beq_iff_eq, Ne.symm hne]
  rw [h2, List.append_nil, List.length_map]
  congr 1
  refine List.filter_congr ?_
  intro r _
  by_cases hm : (r.mode == m) = true
  · have : r.mode = m := beq_iff_eq.mp hm
    simp [Function.comp, hm, this, beq_iff_eq, Ne.symm hne]
  · simp [Function.comp, hm]

/-- C3: whenever a mode iteration triggers a retrain (bootstrap with no
active set, stale failure counter `≥ 3`, or the counter reaching 3 on this
resolution), the resulting `formula_sets` state has exactly one active row
for that mode — the freshly mined one, with `total_predictions`,
`correct_predictions`, `consecutive_failures` and `accuracy` all zero —
every prior row of the mode being deactivated; the active rows of the
other mode are untouched, so "at most one active set per mode" is
preserved. -/
theorem c3_retrain_activation (allResults : List GameRecord)
    (latestIssue nextIssue : String) (preds : List PredRec)
    (sets : List FormulaSetRow) (nid : ℕ) (m : Mode)
    (hid : (sets.map (·.id)).Nodup)
    (hguard : hasPred preds nextIssue m = false)
    (htrig : retrainTriggered preds sets latestIssue m = true) :
    ((processMode allResults latestIssue nextIssue preds sets nid m).1.filter
        (fun r => r.mode == m && r.is_active))
      = [⟨nid, m, extractRules allResults m, 0, 0, 0, 0, true⟩] ∧
    (∀ m', m' ≠ m →
      activeCount (processMode allResults latestIssue nextIssue preds sets
        nid m).1 m' = activeCount sets m') ∧
    ((∀ m'', activeCount sets m'' ≤ 1) →
      ∀ m'', activeCount (processMode allResults latestIssue nextIssue preds
        sets nid m).1 m'' ≤ 1) := by
  have hS : (processMode allResults latestIssue nextIssue preds sets nid m).1
      = retrainPhase (counterPhase preds sets latestIssue m) m
          (extractRules allResults m) nid := by
    unfold processMode
    rw [hguard]
    simp [htrig]
  rw [hS]
  have hone : (retrainPhase (counterPhase preds sets latestIssue m) m
      (extractRules allResults m) nid).filter
        (fun r => r.mode == m && r.is_active)
      = [⟨nid, m, extractRules allResults m, 0, 0, 0, 0, true⟩] :=
    filter_retrainPhase _ _ _ _
  refine ⟨hone, fun m' hne => ?_, fun hinv m'' => ?_⟩
  · rw [activeCount_retrainPhase_other _ _ _ _ _ hne,
      activeCount_counterPhase _ _ _ _ _ hid]
  · by_cases hm : m'' = m
    · subst hm
      have : activeCount (retrainPhase (counterPhase preds sets latestIssue
          m'') m'' (extractRules allResults m'') nid) m'' = 1 := by
        unfold activeCount
        rw [hone]
        rfl
      omega
    · rw [activeCount_retrainPhase_other _ _ _ _ _ hm,
        activeCount_counterPhase _ _ _ _ _ hid]
      exact hinv m''

/-- C3 witness: the retrain theorem applied to the bootstrap situation of
the concrete trace (no stored sets at all, hence no active set). -/
theorem c3_witness :
    ((processMode run1Results "5" "6" [] [] 0 Mode.color).1.filter
        (fun r => r.mode == Mode.color && r.is_active))
      = [⟨0, Mode.color, extractRules run1Results Mode.color,
          0, 0, 0, 0, true⟩] :=
  (c3_retrain_activation run1Results "5" "6" [] [] 0 Mode.color
    (by decide) (by decide) (by decide)).1

/-! ## Claim C2: the counter-update policy -/

theorem counterPhase_updated {preds : List PredRec}
    {sets : List FormulaSetRow} {latestIssue : String} {m : Mode}
    {A : FormulaSetRow} {p : PredRec} {b : Bool}
    (hA : findActive sets m = some A)
    (hp : lookupPred preds latestIssue m = some p) (hb : p.correct = some b) :
    updateCounters A b ∈ counterPhase preds sets latestIssue m := by
  simp only [counterPhase, hA, hp, hb]
  unfold setRow
  refine List.mem_map.mpr ⟨A, (findActive_mem hA).1, ?_⟩
  have h : (A.id == (updateCounters A b).id) = true := by
    have hid : (updateCounters A b).id = A.id := rfl
    rw [hid]
    exact beq_self_eq_true _
  rw [if_pos h]

theorem counterPhase_of_unresolved {preds : List PredRec}
    {sets : List FormulaSetRow} {latestIssue : String} {m : Mode}
    (hnone : ∀ p, lookupPred preds latestIssue m = some p → p.correct = none) :
    counterPhase preds sets latestIssue m = sets := by
  unfold counterPhase
  split
  · rfl
  case _ A hA =>
    cases hlp : lookupPred preds latestIssue m with
    | none => rfl
    | some p =>
      simp [hnone p hlp]

theorem mem_retrainPhase_deact {l : List FormulaSetRow} {m : Mode}
    {fs : List Formula} {nid : ℕ} {U : FormulaSetRow}
    (hU : U ∈ l) (hm : U.mode = m) :
    ({ U with is_active := false } : FormulaSetRow)
      ∈ retrainPhase l m fs nid := by
  unfold retrainPhase deactivateMode
  refine List.mem_append_left _ (List.mem_map.mpr ⟨U, hU, ?_⟩)
  rw [if_pos (beq_iff_eq.mpr hm)]

/-- C2 (amended): during a mode iteration that will produce a forecast
(no prediction stored yet for the successor period) with an active set
`A`: if the prediction record for the **latest** period exists and is
resolved, the stored row with `A`'s id has `total_predictions`
incremented by exactly 1, `correct_predictions` incremented by 1 and
`consecutive_failures` reset to exactly 0 when correct (otherwise
`consecutive_failures` incremented by exactly 1), and `accuracy`
recomputed as `correct_predictions / total_predictions`; if the latest
period's record is absent or unresolved, all four counters are unchanged —
in particular resolved records of **earlier** periods (and backfilled
records, which are created already resolved) never feed the counters. -/
theorem c2_latest_only_counter_update (allResults : List GameRecord)
    (latestIssue nextIssue : String) (preds : List PredRec)
    (sets : List FormulaSetRow) (nid : ℕ) (m : Mode) (A : FormulaSetRow)
    (hguard : hasPred preds nextIssue m = false)
    (hA : findActive sets m = some A) :
    (∀ p b, lookupPred preds latestIssue m = some p → p.correct = some b →
      ∃ r ∈ (processMode allResults latestIssue nextIssue preds sets nid
          m).1,
        r.id = A.id ∧
        r.total_predictions = A.total_predictions + 1 ∧
        r.correct_predictions =
          (if b then A.correct_predictions + 1 else A.correct_predictions) ∧
        r.consecutive_failures =
          (if b then 0 else A.consecutive_failures + 1) ∧
        r.accuracy
          = (r.correct_predictions : ℚ) / (r.total_predictions : ℚ)) ∧
    ((∀ p, lookupPred preds latestIssue m = some p → p.correct = none) →
      ∃ r ∈ (processMode allResults latestIssue nextIssue preds sets nid
          m).1,
        r.id = A.id ∧
        r.total_predictions = A.total_predictions ∧
        r.correct_predictions = A.correct_predictions ∧
        r.consecutive_failures = A.consecutive_failures ∧
        r.accuracy = A.accuracy) := by
  have hmode : A.mode = m := (findActive_mem hA).2.1
  cases hretr : retrainTriggered preds sets latestIssue m with
  | true =>
    have hS : (processMode allResults latestIssue nextIssue preds sets nid
        m).1
        = retrainPhase (counterPhase preds sets latestIssue m) m
            (extractRules allResults m) nid := by
      unfold processMode
      rw [hguard]
      simp [hretr]
    rw [hS]
    constructor
    · intro p b hp hb
      refine ⟨{ updateCounters A b with is_active := false },
        mem_retrainPhase_deact (counterPhase_updated hA hp hb) hmode,
        rfl, rfl, rfl, rfl, ?_⟩
      simp [updateCounters]
    · intro hnone
      rw [counterPhase_of_unresolved hnone]
      exact ⟨{ A with is_active := false },
        mem_retrainPhase_deact (findActive_mem hA).1 hmode,
        rfl, rfl, rfl, rfl, rfl⟩
  | false =>
    have hS : (processMode allResults latestIssue nextIssue preds sets nid
        m).1 = counterPhase preds sets latestIssue m := by
      unfold processMode
      rw [hguard]
      simp [hretr]
    rw [hS]
    constructor
    · intro p b hp hb
      refine ⟨updateCounters A b, counterPhase_updated hA hp hb,
        rfl, rfl, rfl, rfl, ?_⟩
      simp [updateCounters]
    · intro hnone
      rw [counterPhase_of_unresolved hnone]
      exact ⟨A, (findActive_mem hA).1, rfl, rfl, rfl, rfl, rfl⟩

/-- Concrete stored predictions: the latest period `"5"` has a resolved,
correct record for color mode. -/
def c2Preds : List PredRec :=
  [⟨"5", Mode.color, "GREEN", some true⟩]

/-- Concrete stored sets: one active color set with a correct streak. -/
def c2Sets : List FormulaSetRow :=
  [⟨0, Mode.color, [], 0, 4, 2, 1, true⟩]

/-- C2 witness: the amended counter-update theorem applied to the concrete
state: total goes 4 → 5, correct 2 → 3, the failure streak resets to 0 and
accuracy is recomputed. -/
theorem c2_witness :
    ∃ r ∈ (processMode run1Results "5" "6" c2Preds c2Sets 1 Mode.color).1,
      r.id = 0 ∧ r.total_predictions = 5 ∧ r.correct_predictions = 3 ∧
      r.consecutive_failures = 0 ∧
      r.accuracy = (r.correct_predictions : ℚ) / (r.total_predictions : ℚ) := by
  have h := (c2_latest_only_counter_update run1Results "5" "6" c2Preds
    c2Sets 1 Mode.color ⟨0, Mode.color, [], 0, 4, 2, 1, true⟩
    (by decide) (by decide)).1 ⟨"5", Mode.color, "GREEN", some true⟩ true
    (by decide) (by decide)
  simpa using h

/-- The concrete history of the second invocation: periods `"1"`–`"7"`. -/
def run2Results : List GameRecord :=
  (List.range 7).map (fun i =>
    { issue_number := toString (i + 1), number := i + 1, color := "green" })

/-- C2 counterexample: a two-invocation trace on which the claim fails.
Invocation 1 sees periods 1–5, activates a freshly mined (empty) set for
each mode and forecasts period 6; invocation 2 sees periods 1–7.  During
invocation 2 the record for period 6 (color) — a forecast made by the
still-active color set — is newly resolved (its `correct` goes from
`none` to `some false`), yet the active color set's counters are
untouched: `total_predictions` stays 0 instead of being incremented to 1
and `consecutive_failures` stays 0 instead of becoming 1, because the
handler only consults the record of the latest period (`"7"`), which has
no prediction.  The backfilled record for period 7 is likewise created
already resolved and never feeds the counters. -/
theorem c2_counterexample :
    lookupPred (step run1Results ⟨[], [], 0⟩).preds "6" Mode.color
      = some ⟨"6", Mode.color, "RED", none⟩ ∧
    findActive (step run1Results ⟨[], [], 0⟩).sets Mode.color
      = some ⟨0, Mode.color, [], 0, 0, 0, 0, true⟩ ∧
    lookupPred (step run2Results (step run1Results ⟨[], [], 0⟩)).preds "6"
        Mode.color
      = some ⟨"6", Mode.color, "RED", some false⟩ ∧
    findActive (step run2Results (step run1Results ⟨[], [], 0⟩)).sets
        Mode.color
      = some ⟨0, Mode.color, [], 0, 0, 0, 0, true⟩ := by
  refine ⟨?_, ?_, ?_, ?_⟩ <;> rfl

/-! ## Numeric bridges: the integer guards of the embedding are exactly
the rational comparisons written in the source -/

/-- `(matches > 0 ? correct/matches : 0) ≥ 0.55` in exact integer form. -/
theorem conf_guard_iff (c m : ℕ) :
    (11/20 : ℚ) ≤ ratioConf c m ↔ (0 < m ∧ 11 * m ≤ 20 * c) := by
  unfold ratioConf
  by_cases hm : 0 < m
  · rw [if_pos hm]
    have hmq : (0 : ℚ) < m := by exact_mod_cast hm
    rw [div_le_div_iff₀ (by norm_num) hmq]
    constructor
    · intro h
      refine ⟨hm, ?_⟩
      have : (11 : ℚ) * m ≤ 20 * c := by linarith
      exact_mod_cast this
    · intro h
      have : (11 : ℚ) * m ≤ 20 * c := by exact_mod_cast h.2
      linarith
  · rw [if_neg hm]
    constructor
    · intro h
      exact absurd h (by norm_num)
    · intro h
      exact absurd h.1 hm

/-- The integer rounding of the confidence agrees with
`Math.round(conf * 1000)`. -/
theorem confRound1000_cast (c m : ℕ) (hm : 0 < m) :
    ((confRound1000 c m : ℤ) : ℚ) = (jsRound (ratioConf c m * 1000) : ℚ) := by
  unfold confRound1000 jsRound ratioConf
  rw [if_neg (Nat.pos_iff_ne_zero.mp hm), if_pos hm]
  have hmq : (m : ℚ) ≠ 0 := by
    exact_mod_cast Nat.pos_iff_ne_zero.mp hm
  have harg : (c : ℚ) / m * 1000 + 1/2
      = (((2000 * c + m : ℕ) : ℤ) : ℚ) / ((2 * m : ℕ) : ℚ) := by
    push_cast
    field_simp
    ring
  rw [harg, Rat.floor_intCast_div_natCast]
  push_cast [Int.ofNat_div]
  norm_num

theorem roundConf_ge {q : ℚ} (h : 11/20 ≤ q) : 11/20 ≤ roundConf q := by
  unfold roundConf jsRound
  have h1 : (550 : ℤ) ≤ ⌊q * 1000 + 1/2⌋ := by
    apply Int.le_floor.mpr
    push_cast
    linarith
  have h2 : ((550 : ℤ) : ℚ) ≤ (⌊q * 1000 + 1/2⌋ : ℚ) := by exact_mod_cast h1
  rw [le_div_iff₀ (by norm_num : (0:ℚ) < 1000)]
  push_cast at h2
  linarith

theorem roundConf_le_one {q : ℚ} (h : q ≤ 1) : roundConf q ≤ 1 := by
  unfold roundConf jsRound
  have hfl : ⌊(1000 : ℚ) + 1/2⌋ = 1000 := by
    apply Int.floor_eq_iff.mpr
    constructor <;> norm_num
  have h1 : ⌊q * 1000 + 1/2⌋ ≤ 1000 := by
    rw [← hfl]
    apply Int.floor_le_floor
    linarith
  have h2 : (⌊q * 1000 + 1/2⌋ : ℚ) ≤ 1000 := by exact_mod_cast h1
  rw [div_le_one (by norm_num : (0:ℚ) < 1000)]
  exact h2

theorem roundConf_nonneg {q : ℚ} (h : 0 ≤ q) : 0 ≤ roundConf q := by
  unfold roundConf jsRound
  have h1 : (0 : ℤ) ≤ ⌊q * 1000 + 1/2⌋ := by
    apply Int.le_floor.mpr
    push_cast
    linarith
  have h2 : (0 : ℚ) ≤ (⌊q * 1000 + 1/2⌋ : ℚ) := by exact_mod_cast h1
  positivity

theorem ratioConf_nonneg (c m : ℕ) : 0 ≤ ratioConf c m := by
  unfold ratioConf
  split
  · positivity
  · exact le_refl 0

theorem ratioConf_le_one {c m : ℕ} (hcm : c ≤ m) : ratioConf c m ≤ 1 := by
  unfold ratioConf
  split
  case _ hm =>
    rw [div_le_one (by exact_mod_cast hm)]
    exact_mod_cast hcm
  case _ => norm_num

/-- The per-formula bounds established for every retained candidate. -/
def FormulaOK (L : ℕ) (f : Formula) : Prop :=
  (11/20 : ℚ) ≤ f.confidence ∧ 0 ≤ f.confidence ∧ f.confidence ≤ 1 ∧
  1 ≤ f.support ∧
  (if isDblRep f.cond then 3 * L ≤ 200 * f.support
   else 3 * L ≤ 100 * f.support)

theorem mkFormula_some {L : ℕ} {fid fty : String} {c : Cond} {pred : String}
    {correct matchCnt : ℕ} {f : Formula}
    (h : mkFormula L fid fty c pred correct matchCnt = some f) :
    f.cond = c ∧ f.support = matchCnt ∧
    f.conf1000 = confRound1000 correct matchCnt ∧
    (if isDblRep c then 3 * L ≤ 200 * matchCnt
     else 3 * L ≤ 100 * matchCnt) ∧
    0 < matchCnt ∧ 11 * matchCnt ≤ 20 * correct := by
  unfold mkFormula at h
  by_cases hg : (if isDblRep c then 200 * matchCnt ≥ 3 * L
      else 100 * matchCnt ≥ 3 * L) ∧ (0 < matchCnt ∧ 11 * matchCnt ≤ 20 * correct)
  · rw [if_pos hg] at h
    have hfe := (Option.some.inj h).symm
    subst hfe
    exact ⟨rfl, rfl, rfl, hg.1, hg.2.1, hg.2.2⟩
  · rw [if_neg hg] at h
    exact absurd h (by simp)

theorem mkFormula_confidence {L : ℕ} {fid fty : String} {c : Cond}
    {pred : String} {correct matchCnt : ℕ} {f : Formula}
    (h : mkFormula L fid fty c pred correct matchCnt = some f) :
    f.confidence = roundConf (ratioConf correct matchCnt) := by
  obtain ⟨-, -, hconf, -, hm, -⟩ := mkFormula_some h
  unfold Formula.confidence roundConf
  rw [hconf]
  have := confRound1000_cast correct matchCnt hm
  push_cast at this ⊢
  rw [this]

theorem mkFormula_ok {L : ℕ} {fid fty : String} {c : Cond} {pred : String}
    {correct matchCnt : ℕ} {f : Formula}
    (h : mkFormula L fid fty c pred correct matchCnt = some f)
    (hcm : correct ≤ matchCnt) : FormulaOK L f := by
  obtain ⟨hcond, hsupp, -, hfloor, hm, hg⟩ := mkFormula_some h
  have hconf : f.confidence = roundConf (ratioConf correct matchCnt) :=
    mkFormula_confidence h
  have hge : (11/20 : ℚ) ≤ ratioConf correct matchCnt :=
    (conf_guard_iff correct matchCnt).mpr ⟨hm, hg⟩
  refine ⟨?_, ?_, ?_, ?_, ?_⟩
  · rw [hconf]; exact roundConf_ge hge
  · rw [hconf]; exact roundConf_nonneg (ratioConf_nonneg _ _)
  · rw [hconf]; exact roundConf_le_one (ratioConf_le_one hcm)
  · rw [hsupp]; exact hm
  · rw [hcond, hsupp]; exact hfloor

theorem streakRules_ok {seq : List String} {o0 o1 : String} {L : ℕ}
    {f : Formula} (hf : f ∈ streakRules seq o0 o1 L) : FormulaOK L f := by
  unfold streakRules at hf
  obtain ⟨len, -, hf⟩ := List.mem_flatMap.mp hf
  obtain ⟨val, -, heq⟩ := List.mem_filterMap.mp hf
  exact mkFormula_ok heq (List.length_filter_le _ _)

theorem ngramRules_ok {seq : List String} {o0 o1 : String} {L : ℕ}
    {f : Formula} (hf : f ∈ ngramRules seq o0 o1 L) : FormulaOK L f := by
  unfold ngramRules at hf
  obtain ⟨n, -, hf⟩ := List.mem_flatMap.mp hf
  split at hf
  · exact absurd hf (by simp)
  · obtain ⟨pat, -, hf⟩ := List.mem_flatMap.mp hf
    obtain ⟨out, hout, heq⟩ := List.mem_filterMap.mp hf
    have hout2 : out = o0 ∨ out = o1 := by simpa using hout
    rcases hout2 with rfl | rfl
    · exact mkFormula_ok heq (Nat.le_add_right _ _)
    · exact mkFormula_ok heq (Nat.le_add_left _ _)

theorem freqRules_ok {seq : List String} {o0 o1 : String} {L : ℕ}
    {f : Formula} (hf : f ∈ freqRules seq o0 o1 L) : FormulaOK L f := by
  unfold freqRules at hf
  obtain ⟨w, -, hf⟩ := List.mem_flatMap.mp hf
  split at hf
  · exact absurd hf (by simp)
  · obtain ⟨pct, -, hf⟩ := List.mem_flatMap.mp hf
    obtain ⟨dv, -, heq⟩ := List.mem_filterMap.mp hf
    exact mkFormula_ok heq (List.length_filter_le _ _)

theorem altRules_ok {seq : List String} {o0 o1 : String} {L : ℕ}
    {f : Formula} (hf : f ∈ altRules seq o0 o1 L) : FormulaOK L f := by
  unfold altRules at hf
  obtain ⟨len, -, heq⟩ := List.mem_filterMap.mp hf
  split at heq
  · exact absurd heq (by simp)
  · exact mkFormula_ok heq (List.length_filter_le _ _)

theorem transRules_ok {seq : List String} {o0 o1 : String} {L : ℕ}
    {f : Formula} (hf : f ∈ transRules seq o0 o1 L) : FormulaOK L f := by
  unfold transRules at hf
  obtain ⟨src, -, hf⟩ := List.mem_flatMap.mp hf
  obtain ⟨dst, hdst, heq⟩ := List.mem_filterMap.mp hf
  have hdst2 : dst = o0 ∨ dst = o1 := by simpa using hdst
  rcases hdst2 with rfl | rfl
  · exact mkFormula_ok heq (Nat.le_add_right _ _)
  · exact mkFormula_ok heq (Nat.le_add_left _ _)

theorem nclusterRules_ok {m : Mode} {seq : List String} {nums : List ℕ}
    {L : ℕ} {f : Formula} (hf : f ∈ nclusterRules m seq nums L) :
    FormulaOK L f := by
  unfold nclusterRules at hf
  split at hf
  · obtain ⟨w, -, heq⟩ := List.mem_filterMap.mp hf
    split at heq
    · exact absurd heq (by simp)
    · exact mkFormula_ok heq (List.length_filter_le _ _)
  · exact absurd hf (by simp)

theorem dblRepRules_ok {seq : List String} {o0 o1 : String} {L : ℕ}
    {f : Formula} (hf : f ∈ dblRepRules seq o0 o1 L) : FormulaOK L f := by
  unfold dblRepRules at hf
  obtain ⟨r, -, hf⟩ := List.mem_flatMap.mp hf
  split at hf
  · exact absurd hf (by simp)
  · obtain ⟨val, -, heq⟩ := List.mem_filterMap.mp hf
    exact mkFormula_ok heq (List.length_filter_le _ _)

theorem candidateRules_ok {m : Mode} {seq : List String} {nums : List ℕ}
    {f : Formula} (hf : f ∈ candidateRules m seq nums) :
    FormulaOK seq.length f := by
  unfold candidateRules at hf
  simp only [List.mem_append] at hf
  rcases hf with ((((((hf | hf) | hf) | hf) | hf) | hf) | hf)
  · exact streakRules_ok hf
  · exact ngramRules_ok hf
  · exact freqRules_ok hf
  · exact altRules_ok hf
  · exact transRules_ok hf
  · exact nclusterRules_ok hf
  · exact dblRepRules_ok hf

theorem mem_extractRules {history : List GameRecord} {m : Mode} {f : Formula}
    (hf : f ∈ extractRules history m) :
    f ∈ candidateRules m (extractFeatures history m).seq
        (extractFeatures history m).nums := by
  simp only [extractRules] at hf
  split at hf
  · exact absurd hf (by simp)
  · have h1 := List.mem_of_mem_take hf
    unfold rankedCandidates at h1
    exact (List.mem_insertionSort scoreGE).mp h1

/-! ## Claim C4: retention floors -/

/-- C4: every formula emitted by the miner has (stored, rounded)
confidence at least `0.55` and support at least `⌈0.03 × L⌉` where `L` is
the sequence length — except the double/triple-repeat family, for which
the floor is halved (`support ≥ ⌈0.03 × L⌉ / 2`, i.e.
`⌈0.03 × L⌉ ≤ 2 × support`).  In particular `support ≥ 1`: a candidate
whose condition matched zero times is never emitted, and its confidence is
never computed by dividing by zero (the source guards the division with
`matches > 0 ? … : 0`, and the zero branch fails the `≥ 0.55` test). -/
theorem c4_retention_floors (history : List GameRecord) (m : Mode)
    (f : Formula) (hf : f ∈ extractRules history m) :
    (11/20 : ℚ) ≤ f.confidence ∧ 1 ≤ f.support ∧
    (if isDblRep f.cond then
        ⌈3 * (history.length : ℚ) / 100⌉ ≤ 2 * (f.support : ℤ)
      else ⌈3 * (history.length : ℚ) / 100⌉ ≤ (f.support : ℤ)) := by
  have hok := candidateRules_ok (mem_extractRules hf)
  have hlen : (extractFeatures history m).seq.length = history.length := by
    unfold extractFeatures
    simp
  rw [hlen] at hok
  obtain ⟨h1, h2, h3, h4, h5⟩ := hok
  refine ⟨h1, h4, ?_⟩
  by_cases hd : isDblRep f.cond = true
  · rw [if_pos hd]
    rw [if_pos hd] at h5
    rw [Int.ceil_le]
    have hq : (3 * history.length : ℚ) ≤ 200 * f.support := by
      exact_mod_cast h5
    push_cast
    rw [div_le_iff₀ (by norm_num : (0:ℚ) < 100)]
    linarith
  · rw [if_neg hd]
    rw [if_neg hd] at h5
    rw [Int.ceil_le]
    have hq : (3 * history.length : ℚ) ≤ 100 * f.support := by
      exact_mod_cast h5
    push_cast
    rw [div_le_iff₀ (by norm_num : (0:ℚ) < 100)]
    linarith

/-- The top-ranked formula mined from `altHist` (the length-3 alternation
rule: confidence 1.000, support 7). -/
def altTopFormula : Formula :=
  ⟨"alt_3", "alternation", Cond.alt 3, "CONTINUE_ALT", 1000, 7⟩

/-- C4 witness: the retention theorem applied to a concrete mined
formula. -/
theorem c4_witness :
    (11/20 : ℚ) ≤ altTopFormula.confidence ∧ 1 ≤ altTopFormula.support ∧
    (if isDblRep altTopFormula.cond then
        ⌈3 * (altHist.length : ℚ) / 100⌉ ≤ 2 * (altTopFormula.support : ℤ)
      else ⌈3 * (altHist.length : ℚ) / 100⌉ ≤ (altTopFormula.support : ℤ)) :=
  c4_retention_floors altHist Mode.color altTopFormula (by decide)

/-! ## Claim C5: size cap, ordering, stability and bounds of the mined
list -/

theorem tryFormula_eq (f : Formula) (seq : List String) (nums : List ℕ)
    (o0 o1 : String) :
    tryFormula f seq nums o0 o1
      = if condHolds f seq nums then
          some (firedPred f seq nums o0 o1, some f)
        else none := by
  unfold tryFormula condHolds firedPred
  cases hc : f.cond with
  | streak len val => simp
  | ngram n pat => simp
  | freqImb val pct w => simp
  | alt len => simp
  | trans src => simp
  | numCluster w =>
    by_cases h1 : w ≤ nums.length
    · by_cases h2 : (tailN nums w).sum ≤ 3 * w
      · simp [h1, h2]
      · by_cases h3 : 6 * w ≤ (tailN nums w).sum
        · simp [h1, h2, h3]
        · simp [h1, h2, h3]
    · simp [h1]
  | dblRepeat r val => simp

theorem applyGo_eq_find (seq : List String) (nums : List ℕ)
    (o0 o1 : String) (fs : List Formula) :
    applyGo seq nums o0 o1 fs
      = (fs.find? (fun g => condHolds g seq nums)).map
          (fun f => (firedPred f seq nums o0 o1, some f)) := by
  induction fs with
  | nil => rfl
  | cons f fs ih =>
    rw [applyGo, tryFormula_eq]
    by_cases h : condHolds f seq nums = true
    · simp [List.find?_cons, h]
    · have hb : condHolds f seq nums = false := by
        simpa using h
      simp [List.find?_cons, hb, ih]

theorem condHolds_nil {f : Formula} (hwf : f.wf) :
    condHolds f [] [] = false := by
  unfold Formula.wf condWF at hwf
  unfold condHolds
  cases hc : f.cond with
  | streak len val =>
    rw [hc] at hwf
    simp only [List.length_nil]
    have : ¬(len ≤ 0) := by
      have := of_decide_eq_true hwf
      omega
    simp [this]
  | ngram n pat =>
    rw [hc] at hwf
    simp only [List.length_nil]
    have hn : ¬(n ≤ 0) := by
      have := of_decide_eq_true hwf
      omega
    simp [hn]
  | freqImb val pct w =>
    rw [hc] at hwf
    simp only [List.length_nil]
    have hw : ¬(w ≤ 0) := by
      have := of_decide_eq_true hwf
      omega
    simp [hw]
  | alt len =>
    rw [hc] at hwf
    simp only [List.length_nil]
    have : ¬(len ≤ 0) := by
      have := of_decide_eq_true hwf
      omega
    simp [this]
  | trans src => simp
  | numCluster w =>
    rw [hc] at hwf
    simp only [List.length_nil]
    have hw : ¬(w ≤ 0) := by
      have := of_decide_eq_true hwf
      omega
    simp [hw]
  | dblRepeat r val =>
    rw [hc] at hwf
    simp only [List.length_nil]
    have hr : ¬(2 * r ≤ 0) := by
      have := of_decide_eq_true hwf
      omega
    simp [hr]

/-- C6: the applier returns the (resolved) prediction of the first stored
formula whose condition holds on the current tail, tagged with that
formula; if no condition holds and the sequence is nonempty it returns the
label that is not the last observed label, tagged with no formula; on an
empty sequence it returns the fixed per-mode default `outs[0]` (`RED` for
color, `BIG` for size).  `firedPred` resolves the symbolic predictions
`CONTINUE_ALT` / `FOLLOW_TREND` exactly as the source does and is the
stored prediction for every other family. -/
theorem c6_applier (formulas : List Formula) (history : List GameRecord)
    (m : Mode) (hwf : ∀ f ∈ formulas, f.wf) :
    (∀ f, formulas.find? (fun g => condHolds g
          (extractFeatures history m).seq (extractFeatures history m).nums)
        = some f →
      applyFormulas formulas history m
        = (firedPred f (extractFeatures history m).seq
            (extractFeatures history m).nums (outs0 m) (outs1 m), some f)) ∧
    (formulas.find? (fun g => condHolds g (extractFeatures history m).seq
          (extractFeatures history m).nums) = none →
      (extractFeatures history m).seq ≠ [] →
      applyFormulas formulas history m
        = (flipLabel (outs0 m) (outs1 m)
            ((extractFeatures history m).seq.getLastD ""), none)) ∧
    ((extractFeatures history m).seq = [] →
      applyFormulas formulas history m = (outs0 m, none)) := by
  refine ⟨fun f hf => ?_, fun hn hne => ?_, fun hnil => ?_⟩
  · simp only [applyFormulas]
    rw [applyGo_eq_find, hf]
    rfl
  · simp only [applyFormulas]
    rw [applyGo_eq_find, hn]
    have hlen : (extractFeatures history m).seq.length ≠ 0 := by
      intro h0
      exact hne (List.length_eq_zero.mp h0)
    simp [hlen]
  · have hhist : history = [] := by
      have h0 := hnil
      unfold extractFeatures at h0
      simpa using h0
    subst hhist
    simp only [applyFormulas]
    rw [applyGo_eq_find]
    have hfind : formulas.find? (fun g => condHolds g
        (extractFeatures [] m).seq (extractFeatures [] m).nums) = none := by
      rw [List.find?_eq_none]
      intro g hg
      have : condHolds g [] [] = false := condHolds_nil (hwf g hg)
      simpa [extractFeatures] using this
    rw [hfind]
    simp [extractFeatures]

/-- C6 witness: the applier theorem at the concrete alternating history;
the first stored rule is the length-3 alternation rule, its condition
holds on the current tail, and the applier resolves `CONTINUE_ALT` to the
reversal of the last label (`GREEN` → `RED`). -/
theorem c6_witness :
    applyFormulas (extractRules altHist Mode.color) altHist Mode.color
      = ("RED", some ⟨"alt_3", "alternation", Cond.alt 3, "CONTINUE_ALT",
          1000, 7⟩) := by
  have h := (c6_applier (extractRules altHist Mode.color) altHist Mode.color
    (by decide)).1
    ⟨"alt_3", "alternation", Cond.alt 3, "CONTINUE_ALT", 1000, 7⟩ (by decide)
  rw [h]
  decide

end Wingo
